import Mathlib

/-!
Verification of the manifest-driven file verifier (files.js / checksum.js).

Strings from the JavaScript source are modelled as `List Char` (`Str`); the
ASCII fragments of the JS string library used by the code (`trim`,
`toLowerCase`, `split`, `substring`, `replace`) are embedded below, each
definition next to the source expression it translates.
-/

namespace VerifyFiles

/-- JS strings are modelled as lists of characters. -/
abbrev Str := List Char

/-- ASCII model of the whitespace class used by JS `trim` and `\s`
(space, tab, line feed, vertical tab, form feed, carriage return). -/
def isJsWs (c : Char) : Bool :=
  c = ' ' || c = '\t' || c = '\n' || c = '\x0b' || c = '\x0c' || c = '\r'

/-- ASCII model of `String.prototype.toLowerCase` (maps A-Z to a-z,
leaves every other character unchanged). -/
def jsToLower (c : Char) : Char :=
  match c with
  | 'A' => 'a' | 'B' => 'b' | 'C' => 'c' | 'D' => 'd' | 'E' => 'e'
  | 'F' => 'f' | 'G' => 'g' | 'H' => 'h' | 'I' => 'i' | 'J' => 'j'
  | 'K' => 'k' | 'L' => 'l' | 'M' => 'm' | 'N' => 'n' | 'O' => 'o'
  | 'P' => 'p' | 'Q' => 'q' | 'R' => 'r' | 'S' => 's' | 'T' => 't'
  | 'U' => 'u' | 'V' => 'v' | 'W' => 'w' | 'X' => 'x' | 'Y' => 'y'
  | 'Z' => 'z'
  | c => c

/-- `s.toLowerCase()` on a whole string. -/
def lowerStr (s : Str) : Str := s.map jsToLower

/-- `p.replace(/\\/g, "/")` — the `normalizePath` helper of the source. -/
def normSlash (s : Str) : Str := s.map fun c => if c = '\\' then '/' else c

/-- Drop trailing JS whitespace (second half of `trim`). -/
def dropTrailingWs (s : Str) : Str := (s.reverse.dropWhile isJsWs).reverse

/-- `s.trim()`. -/
def jsTrim (s : Str) : Str := dropTrailingWs (s.dropWhile isJsWs)

/-- `s.split("\n")`: every occurrence of the newline character separates
two (possibly empty) fields. -/
def splitLines : Str → List Str
  | [] => [[]]
  | c :: r =>
    if c = '\n' then [] :: splitLines r
    else
      match splitLines r with
      | [] => [[c]]
      | l :: ls => (c :: l) :: ls

/-- `items.join("\n")`. -/
def joinLines : List Str → Str
  | [] => []
  | [x] => x
  | x :: y :: r => x ++ '\n' :: joinLines (y :: r)

/-- One parsed manifest line of checksum.js:
`{ expectedHash: line.substring(0, 10).toLowerCase(),
   filePath: line.substring(11).trim().replace(/\\/g, "/") }`. -/
structure ManifestEntry where
  expectedHash : Str
  filePath : Str
deriving DecidableEq

/-- Manifest parsing of checksum.js (src/lib/checksum.js lines 79-85):
split on newlines, keep lines whose trimmed length is at least 11, take
the first 10 characters lower-cased as the hash and the substring from
index 11, trimmed and backslash-normalized, as the path. -/
def parseEntries (text : Str) : List ManifestEntry :=
  ((splitLines text).filter fun line => 11 ≤ (jsTrim line).length).map
    fun line => ⟨lowerStr (line.take 10), normSlash (jsTrim (line.drop 11))⟩

/-- Manifest parsing of files.js (lines 122-129): same acceptance rule,
keeping only the path component `line.substring(11).trim()` normalized. -/
def parseExpectedFiles (text : Str) : List Str :=
  ((splitLines text).filter fun line => 11 ≤ (jsTrim line).length).map
    fun line => normSlash (jsTrim (line.drop 11))

/-- `new Set(list)`: insertion-order membership structure; later
duplicates are ignored.  Only membership (`has`) is used downstream. -/
def mkJsSet (l : List Str) : List Str :=
  l.foldl (fun acc x => if acc.contains x then acc else acc ++ [x]) []

/-- `missing = expectedFiles.filter((file) => !actualSet.has(file))`
(src/files.js line 149). -/
def missingOf (expectedFiles actualFiles : List Str) : List Str :=
  expectedFiles.filter fun f => !(mkJsSet actualFiles).contains f

/-- `extra = actualFiles.filter((file) => !expectedSet.has(file))`
(src/files.js line 150). -/
def extraOf (expectedFiles actualFiles : List Str) : List Str :=
  actualFiles.filter fun f => !(mkJsSet expectedFiles).contains f

/-!
Exclusion matcher.  `globToRegex` escapes every regex metacharacter of
the glob, rewrites `*` to `.*` and compiles `^...$` with the `i` flag,
so the compiled regex matches the whole candidate, case-insensitively,
with every non-star character literal and each `*` standing for an
arbitrary run.  `globMatch` is that matcher, pattern on the left.
-/

/-- Semantics of the regex produced by `globToRegex`
(src/lib/checksum.js lines 211-215): anchored, case-insensitive,
`*` matches any run of characters, all other characters literal. -/
def globMatch : List Char → List Char → Bool
  | [], [] => true
  | [], _ :: _ => false
  | p :: ps, [] => p = '*' && globMatch ps []
  | p :: ps, c :: s =>
    if p = '*' then globMatch ps (c :: s) || globMatch (p :: ps) s
    else jsToLower p = jsToLower c && globMatch ps s
termination_by p s => (p.length, s.length)

/-- The two pattern lists produced by `processExcludeList`. -/
structure PatternSet where
  namePatterns : List Str
  pathPatterns : List Str
deriving DecidableEq

/-- Model of `path.resolve(rootDir, item)` for an absolute, normalized
`rootDir` and an `item` free of `.`/`..` segments: an absolute item is
returned as is, a relative one is joined below the root. -/
def resolveP (rootDir item : Str) : Str :=
  if item.headD ' ' = '/' then item else rootDir ++ '/' :: item

/-- `processExcludeList(rawList, rootDir)`
(src/lib/checksum.js lines 221-236): each raw pattern is backslash-
normalized; when it contains a path separator it is resolved against
the root and kept as a path pattern, otherwise as a name pattern. -/
def processExcludeList : List Str → Str → PatternSet
  | [], _ => ⟨[], []⟩
  | item :: rest, rootDir =>
    let normalizedItem := normSlash item
    let r := processExcludeList rest rootDir
    if normalizedItem.contains '/' then
      ⟨r.namePatterns, normSlash (resolveP rootDir item) :: r.pathPatterns⟩
    else
      ⟨normalizedItem :: r.namePatterns, r.pathPatterns⟩

/-!
Tree walker.  The filesystem below the scan root is modelled as a list
of entries, directories carrying their children; paths are kept
slash-normalized throughout, as the walker itself normalizes every
path it touches.
-/

/-- One filesystem entry as returned by `readdir(withFileTypes)`. -/
inductive FSEntry where
  | file (nm : Str)
  | dir (nm : Str) (children : List FSEntry)

/-- The four independent rule lists of `excludeRules`
(src/lib/checksum.js lines 362-367). -/
structure Rules where
  dirNames : List Str
  dirPaths : List Str
  fileNames : List Str
  filePaths : List Str
deriving DecidableEq

/-- The ordered logs `excludedLog.dirs` / `excludedLog.files`. -/
structure WalkLog where
  dirs : List Str
  files : List Str
deriving DecidableEq

/-- `path.join(dir, name)` for slash-normalized paths. -/
def joinP (dir nm : Str) : Str := dir ++ '/' :: nm

/-- Model of `path.relative(baseDir, fullPath)` for the walker, where
`fullPath` always extends `baseDir`. -/
def relP (base full : Str) : Str :=
  if (base ++ ['/']).isPrefixOf full then full.drop (base.length + 1) else full

/-- Directory exclusion test of the walker: name patterns on the bare
name first, otherwise path patterns on the normalized full path
(src/lib/checksum.js lines 249-261). -/
def dirExcluded (r : Rules) (nm full : Str) : Bool :=
  r.dirNames.any (fun p => globMatch p nm) ||
    r.dirPaths.any (fun p => globMatch p full)

/-- File exclusion test of the walker (src/lib/checksum.js lines 270-280). -/
def fileExcluded (r : Rules) (nm full : Str) : Bool :=
  r.fileNames.any (fun p => globMatch p nm) ||
    r.filePaths.any (fun p => globMatch p full)

/-- `getFileList(dir, baseDir, excludeRules, excludedLog)`
(src/lib/checksum.js lines 238-295), the mutable `excludedLog` threaded
explicitly: entries are visited in order; an excluded directory is
logged and its subtree skipped, a kept directory is recursed into; an
excluded file is logged, a kept file contributes its relative path. -/
def walkList (rules : Rules) (base : Str) :
    List FSEntry → Str → WalkLog → List Str × WalkLog
  | [], _, log => ([], log)
  | .dir nm children :: rest, d, log =>
    let full := joinP d nm
    if dirExcluded rules nm full then
      walkList rules base rest d { log with dirs := log.dirs ++ [relP base full] }
    else
      let sub := walkList rules base children full log
      let tail := walkList rules base rest d sub.2
      (sub.1 ++ tail.1, tail.2)
  | .file nm :: rest, d, log =>
    let full := joinP d nm
    if fileExcluded rules nm full then
      walkList rules base rest d { log with files := log.files ++ [relP base full] }
    else
      let tail := walkList rules base rest d log
      (relP base full :: tail.1, tail.2)

/-- The `actualFiles` list of a run: walk of the target tree rooted at
`base` with an empty log (src/lib/checksum.js line 393). -/
def walkFiles (rules : Rules) (base : Str) (entries : List FSEntry) : List Str :=
  (walkList rules base entries base ⟨[], []⟩).1

/-- The files component of the walk alone; used to show that the files
returned by `walkList` do not depend on the excluded log threaded
through it. -/
def walkFilesOnly (rules : Rules) (base : Str) : List FSEntry → Str → List Str
  | [], _ => []
  | .dir nm children :: rest, d =>
    let full := joinP d nm
    if dirExcluded rules nm full then walkFilesOnly rules base rest d
    else walkFilesOnly rules base children full ++ walkFilesOnly rules base rest d
  | .file nm :: rest, d =>
    let full := joinP d nm
    if fileExcluded rules nm full then walkFilesOnly rules base rest d
    else relP base full :: walkFilesOnly rules base rest d

/-!
Streaming hasher.  `crypto.createHash("sha1")` with `update`/`digest`
is modelled at its API contract: the accumulator holds the byte stream
fed so far, `update` appends a chunk to it, and `digest("hex")` applies
the SHA-1 hex encoding — kept abstract as a parameter `sha1hex`, since
the claims are about chunking and truncation, not the compression
function — to the accumulated stream.
-/

/-- State of a `crypto.Hash` object: the bytes fed so far. -/
structure Hash where
  data : List Nat
deriving DecidableEq

/-- `hash.update(chunk)` appends the chunk to the hashed stream. -/
def Hash.update (h : Hash) (chunk : List Nat) : Hash := ⟨h.data ++ chunk⟩

/-- The streaming branch of `calculateSHA1` (src/lib/checksum.js lines
26-41): each chunk of the read stream is fed into one `update`, then
`hash.digest("hex").substring(0, 10)`. -/
def calculateSHA1stream (sha1hex : List Nat → Str) (chunks : List (List Nat)) : Str :=
  (sha1hex (chunks.foldl Hash.update ⟨[]⟩).data).take 10

/-- The whole-buffer variant of `calculateSHA1` (src/__checksum.js lines
25-26): `createHash("sha1").update(fileBuffer).digest("hex").substring(0, 10)`. -/
def calculateSHA1buffer (sha1hex : List Nat → Str) (fileBuffer : List Nat) : Str :=
  (sha1hex (Hash.update ⟨[]⟩ fileBuffer).data).take 10

/-- The sha1sum branch of `calculateSHA1` (src/lib/checksum.js lines
21-23): `output.trim().split(/\s+/)[0].substring(1, 11)`.  Field `[0]`
of a whitespace split of a trimmed string is its longest leading run of
non-whitespace characters; `substring(1, 11)` keeps characters at
indices 1 through 10. -/
def sha1sumExtract (output : Str) : Str :=
  (((jsTrim output).takeWhile fun c => !isJsWs c).drop 1).take 10

/-- Lowercase hexadecimal digits. -/
def isLowerHex (c : Char) : Bool :=
  c = '0' || c = '1' || c = '2' || c = '3' || c = '4' || c = '5' ||
  c = '6' || c = '7' || c = '8' || c = '9' || c = 'a' || c = 'b' ||
  c = 'c' || c = 'd' || c = 'e' || c = 'f'

/-!
Checksum-mode verification loop (src/lib/checksum.js lines 91-120).
What the environment does for one manifest entry — the observable
outcomes the per-entry try/catch distinguishes — is a `Probe`: a throw
carrying code ENOENT (from `fs.access` or the stream), a throw with any
other code, a null result of `calculateSHA1` (its swallowed internal
failure), or a computed digest.
-/

/-- Per-entry outcome of `fs.access` + `calculateSHA1`. -/
inductive Probe where
  | enoent
  | errOther (msg : Str)
  | nullHash
  | hashed (h : Str)
deriving DecidableEq

/-- Classification of one manifest entry: the pair of lines it appends
to (`mismatches`, `missingFiles`). -/
def checkOne (probe : Probe) (e : ManifestEntry) : List Str × List Str :=
  match probe with
  | .enoent => ([], [e.filePath])
  | .errOther msg => ([e.filePath ++ (" (error: ".toList ++ msg ++ ")".toList)], [])
  | .nullHash => ([e.filePath ++ " (hash calculation failed)".toList], [])
  | .hashed h =>
    let normalizedActual := lowerStr h
    let normalizedExpected := lowerStr e.expectedHash
    if normalizedActual ≠ normalizedExpected then
      ([e.filePath ++ (" (expected ".toList ++ normalizedExpected ++
        ", got ".toList ++ normalizedActual ++ ")".toList)], [])
    else ([], [])

/-- The verification loop: every entry is probed at
`path.join(targetDir, entry.filePath)` and classified; the loop never
throws and always continues with the remaining entries.  Returns the
final (`mismatches`, `missingFiles`). -/
def runVerify (env : Str → Probe) (targetDir : Str) :
    List ManifestEntry → List Str × List Str
  | [] => ([], [])
  | e :: rest =>
    let step := checkOne (env (joinP targetDir e.filePath)) e
    let tail := runVerify env targetDir rest
    (step.1 ++ tail.1, step.2 ++ tail.2)

/-!
Report-file lifecycle (src/files.js lines 48-59 and 156-182).  The
sidecar filesystem is an association list from path to content plus the
set of paths whose `unlink` raises a non-ENOENT error; an error value
is identified by the path the failure occurred on.
-/

/-- Outcome of `fs.unlink`. -/
inductive UnlinkRes where
  | deleted
  | enoentErr
  | otherErr (p : Str)
deriving DecidableEq

/-- Sidecar filesystem state. -/
structure SideFS where
  files : List (Str × Str)
  failing : List Str
deriving DecidableEq

/-- Content lookup in the association list. -/
def lookupF (fs : List (Str × Str)) (p : Str) : Option Str :=
  match fs with
  | [] => none
  | (q, c) :: r => if q = p then some c else lookupF r p

/-- Remove every binding of `p`. -/
def removeF (fs : List (Str × Str)) (p : Str) : List (Str × Str) :=
  fs.filter fun kv => kv.1 ≠ p

/-- `fs.writeFile(p, content)`: creates or overwrites. -/
def writeF (fs : SideFS) (p content : Str) : SideFS :=
  { fs with files := (p, content) :: removeF fs.files p }

/-- `fs.unlink(p)`: raises a non-ENOENT error on a failing path, ENOENT
when the file does not exist, otherwise removes it. -/
def unlinkF (fs : SideFS) (p : Str) : UnlinkRes × SideFS :=
  if fs.failing.contains p then (.otherErr p, fs)
  else
    match lookupF fs.files p with
    | none => (.enoentErr, fs)
    | some _ => (.deleted, { fs with files := removeF fs.files p })

/-- `deleteFileIfExists(filePath)` (src/files.js lines 48-59): unlink,
return true on success, false when the error code is ENOENT, re-throw
any other error. -/
def deleteFileIfExists (fs : SideFS) (p : Str) : Except Str (Bool × SideFS) :=
  match unlinkF fs p with
  | (.deleted, fsKept) => .ok (true, fsKept)
  | (.enoentErr, fsKept) => .ok (false, fsKept)
  | (.otherErr m, _) => .error m

/-- Report handling for one output category (src/files.js lines
156-182): a non-empty category overwrites its sidecar with the entries
joined by newlines, an empty one deletes a stale sidecar via
`deleteFileIfExists`. -/
def handleCategory (items : List Str) (p : Str) (fs : SideFS) : Except Str SideFS :=
  if items.length > 0 then .ok (writeF fs p (joinLines items))
  else
    match deleteFileIfExists fs p with
    | .ok r => .ok r.2
    | .error m => .error m

/-! ### Basic facts about the character and string helpers -/

theorem jsToLower_ws_fix (c : Char) (h : isJsWs c = true) : jsToLower c = c := by
  simp only [isJsWs, Bool.or_eq_true, decide_eq_true_eq] at h
  rcases h with ((((h | h) | h) | h) | h) | h <;> subst h <;> decide

theorem isJsWs_jsToLower (c : Char) : isJsWs (jsToLower c) = isJsWs c := by
  unfold jsToLower
  split <;> rfl

theorem mem_mkJsSet (l : List Str) (x : Str) : x ∈ mkJsSet l ↔ x ∈ l := by
  have main : ∀ (ys acc : List Str),
      (x ∈ ys.foldl (fun a y => if a.contains y then a else a ++ [y]) acc) ↔
        (x ∈ acc ∨ x ∈ ys) := by
    intro ys
    induction ys with
    | nil => simp
    | cons y ys ih =>
      intro acc
      simp only [List.foldl_cons]
      by_cases h : acc.contains y
      · rw [if_pos h, ih]
        have hy : y ∈ acc := by simpa using h
        simp only [List.mem_cons]
        constructor
        · rintro (hx | hx)
          · exact Or.inl hx
          · exact Or.inr (Or.inr hx)
        · rintro (hx | hx | hx)
          · exact Or.inl hx
          · exact Or.inl (hx ▸ hy)
          · exact Or.inr hx
      · rw [if_neg h, ih]
        simp only [List.mem_append, List.mem_cons, List.mem_singleton]
        tauto
  unfold mkJsSet
  rw [main l []]
  simp

theorem mkJsSet_contains (l : List Str) (x : Str) :
    (mkJsSet l).contains x = l.contains x := by
  have h := mem_mkJsSet l x
  simp only [List.contains, List.elem_eq_mem, decide_eq_decide]
  exact h

/-- Claim C1: in file-list reconciliation the computed missing list is
exactly the expected entries whose path is not among the walked paths
(in manifest order, duplicates kept), and the extra list is exactly the
walked paths not among the expected ones (in walk order): membership in
the JS `Set` built from either list coincides with membership in the
list itself, and `filter` keeps order and duplicates. -/
theorem missing_extra_are_filters (expected actual : List Str) :
    missingOf expected actual = expected.filter (fun f => !actual.contains f) ∧
    extraOf expected actual = actual.filter (fun f => !expected.contains f) := by
  constructor
  · exact List.filter_congr fun x _ => by rw [mkJsSet_contains]
  · exact List.filter_congr fun x _ => by rw [mkJsSet_contains]

/-- Claim C2: for every manifest text and every target tree, the
missing and extra lists of file-list verification are both empty
exactly when the walked path set equals the parsed path set. -/
theorem clean_run_iff_same_paths (text : Str) (rules : Rules) (base : Str)
    (entries : List FSEntry) :
    (missingOf (parseExpectedFiles text) (walkFiles rules base entries) = [] ∧
        extraOf (parseExpectedFiles text) (walkFiles rules base entries) = []) ↔
      ∀ p, p ∈ walkFiles rules base entries ↔ p ∈ parseExpectedFiles text := by
  unfold missingOf extraOf
  simp only [List.filter_eq_nil_iff, Bool.not_eq_true', List.contains,
    List.elem_eq_mem, decide_eq_false_iff_not, Decidable.not_not, mem_mkJsSet]
  constructor
  · rintro ⟨h1, h2⟩ p
    exact ⟨fun hp => h2 p hp, fun hp => h1 p hp⟩
  · intro h
    exact ⟨fun p hp => (h p).2 hp, fun p hp => (h p).1 hp⟩

/-! ### Facts about trimming and line splitting -/

theorem length_dropWhile_le' (p : Char → Bool) (l : Str) :
    (l.dropWhile p).length ≤ l.length := by
  induction l with
  | nil => simp
  | cons c r ih =>
    rw [List.dropWhile_cons]
    split
    · exact Nat.le_trans ih (Nat.le_succ _)
    · exact Nat.le_refl _

theorem dropTrailingWs_append_ws (s : Str) :
    dropTrailingWs s ++ (s.reverse.takeWhile isJsWs).reverse = s := by
  unfold dropTrailingWs
  rw [← List.reverse_append, List.takeWhile_append_dropWhile, List.reverse_reverse]

theorem dropTrailingWs_length_le (s : Str) :
    (dropTrailingWs s).length ≤ s.length := by
  conv_rhs => rw [← dropTrailingWs_append_ws s]
  rw [List.length_append]
  exact Nat.le_add_right _ _

theorem jsTrim_length_le (s : Str) : (jsTrim s).length ≤ s.length :=
  Nat.le_trans (dropTrailingWs_length_le _) (length_dropWhile_le' _ _)

theorem splitLines_no_nl (l : Str) (h : '\n' ∉ l) : splitLines l = [l] := by
  induction l with
  | nil => rfl
  | cons c r ih =>
    simp only [List.mem_cons, not_or] at h
    have hc : ¬ c = '\n' := fun hh => h.1 hh.symm
    simp only [splitLines, if_neg hc, ih h.2]

theorem filter_decide_map_eq_filterMap {α β : Type} (P : α → Prop) [DecidablePred P]
    (f : α → β) (l : List α) :
    ((l.filter fun x => decide (P x)).map f) =
      l.filterMap (fun x => if P x then some (f x) else none) := by
  induction l with
  | nil => rfl
  | cons x xs ih =>
    by_cases h : P x <;>
      simp [List.filter_cons, List.filterMap_cons, h, ih]

/-- Claim C3: parsing splits the manifest on line boundaries; every
line whose trimmed length is at least 11 yields exactly one entry whose
fingerprint is the first 10 characters of the line lower-cased and
whose path is the remainder after the separator character (index 11
on), trimmed and backslash-normalized; every line shorter than 11
characters fails the acceptance test, so it is skipped (the parser is a
total function — no input is an error). -/
theorem parse_line_shape (text : Str) :
    (parseEntries text = (splitLines text).filterMap fun line =>
        if 11 ≤ (jsTrim line).length then
          some ⟨lowerStr (line.take 10), normSlash (jsTrim (line.drop 11))⟩
        else none) ∧
    ∀ line ∈ splitLines text, line.length < 11 → ¬ 11 ≤ (jsTrim line).length := by
  constructor
  · unfold parseEntries
    exact filter_decide_map_eq_filterMap _ _ _
  · intro line _ hshort hacc
    have := jsTrim_length_le line
    omega

/-- Witness for C3 at the manifest text
`"abc1234567 a.txt\nshort"`: its second line has length under 11 and is
skipped. -/
theorem parse_line_shape_witness :
    ¬ 11 ≤ (jsTrim ("short".toList)).length :=
  (parse_line_shape ("abc1234567 a.txt\nshort".toList)).2 ("short".toList)
    (by decide) (by decide)

theorem dropWhile_head_false (p : Char → Bool) (l : Str) (d : Char) (ds : Str)
    (h : l.dropWhile p = d :: ds) : p d = false := by
  induction l with
  | nil => simp at h
  | cons c r ih =>
    rw [List.dropWhile_cons] at h
    split at h
    · exact ih h
    · next hc =>
        cases h
        simpa using hc

theorem jsTrim_head_not_ws (l : Str) (d : Char) (ds : Str)
    (h : jsTrim l = d :: ds) : isJsWs d = false := by
  have happ := dropTrailingWs_append_ws (l.dropWhile isJsWs)
  unfold jsTrim at h
  rw [h] at happ
  set T := ((l.dropWhile isJsWs).reverse.takeWhile isJsWs).reverse with hT
  have hdw : l.dropWhile isJsWs = d :: (ds ++ T) := by
    rw [← happ, List.cons_append]
  exact dropWhile_head_false isJsWs l d _ hdw

/-- Claim C10: the parser accepts a line by its trimmed length but cuts
the fingerprint at fixed offsets of the raw line; for a line starting
with a whitespace character whose trimmed length is at least 11, the
single produced entry carries `lowerStr` of the raw first 10 characters
— its first character is that whitespace — and this differs from the
first 10 characters of the trimmed content. -/
theorem raw_offset_fingerprint (c : Char) (rest : Str)
    (hws : isJsWs c = true)
    (hacc : 11 ≤ (jsTrim (c :: rest)).length)
    (hnl : '\n' ∉ (c :: rest)) :
    parseEntries (c :: rest) =
      [⟨lowerStr ((c :: rest).take 10), normSlash (jsTrim ((c :: rest).drop 11))⟩] ∧
    (lowerStr ((c :: rest).take 10)).headD 'x' = c ∧
    lowerStr ((c :: rest).take 10) ≠ lowerStr ((jsTrim (c :: rest)).take 10) := by
  obtain ⟨d, ds, hd⟩ : ∃ d ds, jsTrim (c :: rest) = d :: ds := by
    cases h' : jsTrim (c :: rest) with
    | nil => rw [h'] at hacc; simp at hacc
    | cons d ds => exact ⟨d, ds, rfl⟩
  have hdws : isJsWs d = false := jsTrim_head_not_ws _ _ _ hd
  have hten : (10 : Nat) = 9 + 1 := rfl
  refine ⟨?_, ?_, ?_⟩
  · unfold parseEntries
    rw [splitLines_no_nl _ hnl]
    have hc : decide (11 ≤ (jsTrim (c :: rest)).length) = true := by
      simpa using hacc
    simp [List.filter_cons, hc]
  · rw [hten, List.take_succ_cons]
    simp [lowerStr, jsToLower_ws_fix c hws]
  · rw [hd, hten, List.take_succ_cons, List.take_succ_cons]
    simp only [lowerStr, List.map_cons]
    rw [jsToLower_ws_fix c hws]
    intro heq
    have hcd : c = jsToLower d := (List.cons.injEq _ _ _ _).mp heq |>.1
    rw [hcd, isJsWs_jsToLower, hdws] at hws
    exact Bool.false_ne_true hws

/-- Witness for C10 at the raw line `" abcdefghij path.txt"`: the
fingerprint keeps the leading space and differs from the first 10
characters of the trimmed content. -/
theorem raw_offset_fingerprint_witness :
    (lowerStr ((' ' :: "abcdefghij path.txt".toList).take 10)).headD 'x' = ' ' ∧
    lowerStr ((' ' :: "abcdefghij path.txt".toList).take 10) ≠
      lowerStr ((jsTrim (' ' :: "abcdefghij path.txt".toList)).take 10) :=
  ⟨(raw_offset_fingerprint ' ' ("abcdefghij path.txt".toList)
      (by decide) (by decide) (by decide)).2.1,
   (raw_offset_fingerprint ' ' ("abcdefghij path.txt".toList)
      (by decide) (by decide) (by decide)).2.2⟩

/-! ### Facts about the glob matcher and rule compilation -/

theorem globMatch_star_append (ps : List Char) (r s : List Char)
    (h : globMatch ps s = true) : globMatch ('*' :: ps) (r ++ s) = true := by
  induction r with
  | nil =>
    cases s with
    | nil => simp [globMatch, h]
    | cons c s' => simp [globMatch, h]
  | cons a r ih =>
    simp only [List.cons_append]
    simp [globMatch, ih]

theorem globMatch_no_star (p : List Char) :
    ∀ s : List Char, '*' ∉ p → (globMatch p s = true ↔ lowerStr s = lowerStr p) := by
  induction p with
  | nil =>
    intro s _
    cases s <;> simp [globMatch, lowerStr]
  | cons q ps ih =>
    intro s hq
    simp only [List.mem_cons, not_or] at hq
    have hqs : ¬ q = '*' := fun hh => hq.1 hh.symm
    cases s with
    | nil => simp [globMatch, lowerStr, hqs]
    | cons c s' =>
      simp only [globMatch, if_neg hqs, Bool.and_eq_true, decide_eq_true_eq,
        lowerStr, List.map_cons, List.cons.injEq]
      rw [ih s' hq.2]
      simp only [lowerStr]
      constructor
      · rintro ⟨h1, h2⟩
        exact ⟨h1.symm, h2⟩
      · rintro ⟨h1, h2⟩
        exact ⟨h1.symm, h2⟩

/-- Claim C5: exclusion-rule compilation classifies a backslash-
normalized raw pattern with no path separator as a name pattern and
any other as a path pattern compiled from the pattern resolved against
the scan root; the compiled matcher is an anchored, case-insensitive
full-string match in which `*` matches any run of characters
(including the empty run and runs containing separators) and every
other character is literal. -/
theorem exclusion_rule_compilation (rawList : List Str) (rootDir : Str) :
    ((processExcludeList rawList rootDir).namePatterns =
        (rawList.filter fun i => !(normSlash i).contains '/').map normSlash) ∧
    ((processExcludeList rawList rootDir).pathPatterns =
        (rawList.filter fun i => (normSlash i).contains '/').map
          fun i => normSlash (resolveP rootDir i)) ∧
    (∀ ps r s, globMatch ps s = true → globMatch ('*' :: ps) (r ++ s) = true) ∧
    (∀ p s, '*' ∉ p → (globMatch p s = true ↔ lowerStr s = lowerStr p)) := by
  refine ⟨?_, ?_, globMatch_star_append, fun p s h => globMatch_no_star p s h⟩
  · induction rawList with
    | nil => rfl
    | cons item rest ih =>
      by_cases h : '/' ∈ normSlash item <;>
        simp [processExcludeList, h, List.filter_cons, ih]
  · induction rawList with
    | nil => rfl
    | cons item rest ih =>
      by_cases h : '/' ∈ normSlash item <;>
        simp [processExcludeList, h, List.filter_cons, ih]

/-- Witness for C5: the pattern list `["node_modules", "app/logs"]`
against root `/root` compiles to one name pattern and one resolved path
pattern; `*` absorbs the run `dir/app` (separator included); a starless
pattern matches exactly up to case. -/
theorem exclusion_rule_compilation_witness :
    (processExcludeList ["node_modules".toList, "app/logs".toList]
        "/root".toList).namePatterns = ["node_modules".toList] ∧
    (processExcludeList ["node_modules".toList, "app/logs".toList]
        "/root".toList).pathPatterns = ["/root/app/logs".toList] ∧
    globMatch ('*' :: ".log".toList) ("dir/app".toList ++ ".log".toList) = true ∧
    (globMatch "ab".toList "AB".toList = true ↔
      lowerStr "AB".toList = lowerStr "ab".toList) := by
  have h := exclusion_rule_compilation
    ["node_modules".toList, "app/logs".toList] "/root".toList
  refine ⟨?_, ?_, ?_, ?_⟩
  · rw [h.1]; decide
  · rw [h.2.1]; decide
  · exact h.2.2.1 (".log".toList) ("dir/app".toList) (".log".toList)
      (by simp [globMatch])
  · exact h.2.2.2 ("ab".toList) ("AB".toList) (by decide)

/-! ### Facts about the tree walker -/

theorem walkList_fst_eq_walkFilesOnly (rules : Rules) (base : Str)
    (es : List FSEntry) (d : Str) (log : WalkLog) :
    (walkList rules base es d log).1 = walkFilesOnly rules base es d := by
  induction es, d, log using walkList.induct rules base with
  | case1 d log => simp [walkList, walkFilesOnly]
  | case2 nm children rest d log full h ih =>
    simp [walkList, walkFilesOnly, h, ih]
  | case3 nm children rest d log full h sub tail ih1 ih2 =>
    simp [walkList, walkFilesOnly, h, ih1, ih2]
  | case4 nm rest d log full h ih =>
    simp [walkList, walkFilesOnly, h, ih]
  | case5 nm rest d log full h ih =>
    simp [walkList, walkFilesOnly, h, ih]

/-- Claim C6: a directory matched by an exclusion rule is pruned: the
whole walk step for it only appends its relative path at the end of the
excluded-directories log and never looks at its children, so no file
beneath it reaches the file list nor the missing/extra computations. -/
theorem excluded_dir_pruned (rules : Rules) (base : Str) (nm : Str)
    (children rest : List FSEntry) (d : Str) (log : WalkLog)
    (h : dirExcluded rules nm (joinP d nm) = true) :
    walkList rules base (.dir nm children :: rest) d log =
      walkList rules base rest d ⟨log.dirs ++ [relP base (joinP d nm)], log.files⟩ ∧
    (walkList rules base (.dir nm children :: rest) d log).1 =
      (walkList rules base rest d log).1 ∧
    ∀ expected,
      missingOf expected (walkList rules base (.dir nm children :: rest) d log).1 =
        missingOf expected (walkList rules base rest d log).1 ∧
      extraOf expected (walkList rules base (.dir nm children :: rest) d log).1 =
        extraOf expected (walkList rules base rest d log).1 := by
  have h1 : walkList rules base (.dir nm children :: rest) d log =
      walkList rules base rest d ⟨log.dirs ++ [relP base (joinP d nm)], log.files⟩ := by
    simp [walkList, h]
  have h2 : (walkList rules base (.dir nm children :: rest) d log).1 =
      (walkList rules base rest d log).1 := by
    rw [h1, walkList_fst_eq_walkFilesOnly, walkList_fst_eq_walkFilesOnly]
  exact ⟨h1, h2, fun expected => ⟨by rw [h2], by rw [h2]⟩⟩

/-- Witness for C6: a tree whose first entry is the excluded directory
`skip` (name rule) containing a file `x`; the walk equals the walk of
the remaining entries with `skip` logged, so `x` never appears. -/
theorem excluded_dir_pruned_witness :
    walkList ⟨["skip".toList], [], [], []⟩ "/r".toList
        [.dir "skip".toList [.file "x".toList], .file "a.txt".toList]
        "/r".toList ⟨[], []⟩ =
      walkList ⟨["skip".toList], [], [], []⟩ "/r".toList
        [.file "a.txt".toList] "/r".toList
        ⟨[relP "/r".toList (joinP "/r".toList "skip".toList)], []⟩ :=
  (excluded_dir_pruned ⟨["skip".toList], [], [], []⟩ "/r".toList "skip".toList
    [.file "x".toList] [.file "a.txt".toList] "/r".toList ⟨[], []⟩
    (by simp [dirExcluded, globMatch])).1

/-! ### Facts about the hasher -/

theorem foldl_update_data (chunks : List (List Nat)) (h : Hash) :
    (chunks.foldl Hash.update h).data = h.data ++ chunks.flatten := by
  induction chunks generalizing h with
  | nil => simp
  | cons c cs ih => simp [Hash.update, ih]

/-- Claim C9: the streaming fingerprint over any chunking of the file
content equals the whole-buffer fingerprint of the older variant: the
update accumulator makes the chunked stream identical to the single
buffer, and both truncate the hex digest the same way. -/
theorem stream_eq_buffer (sha1hex : List Nat → Str) (chunks : List (List Nat))
    (fileBuffer : List Nat) (h : chunks.flatten = fileBuffer) :
    calculateSHA1stream sha1hex chunks = calculateSHA1buffer sha1hex fileBuffer := by
  unfold calculateSHA1stream calculateSHA1buffer
  rw [foldl_update_data]
  simp [Hash.update, h]

/-- Witness for C9 at the chunking `[[0], [1, 2]]` of the buffer
`[0, 1, 2]`, with a concrete stand-in digest function. -/
theorem stream_eq_buffer_witness :
    calculateSHA1stream
        (fun bs => if bs.length = 3 then "aaa".toList else "bbb".toList)
        [[0], [1, 2]] =
      calculateSHA1buffer
        (fun bs => if bs.length = 3 then "aaa".toList else "bbb".toList)
        [0, 1, 2] :=
  stream_eq_buffer _ [[0], [1, 2]] [0, 1, 2] (by decide)

theorem ws_not_hex (c : Char) (h : isJsWs c = true) : isLowerHex c = false := by
  simp only [isJsWs, Bool.or_eq_true, decide_eq_true_eq] at h
  rcases h with ((((h | h) | h) | h) | h) | h <;> subst h <;> decide

theorem isLowerHex_not_ws (c : Char) (h : isLowerHex c = true) : isJsWs c = false := by
  cases hw : isJsWs c
  · rfl
  · rw [ws_not_hex c hw] at h
    exact absurd h (by simp)

theorem dropWhile_eq_self_of (p : Char → Bool) (l : Str)
    (h : ∀ c ∈ l, p c = false) : l.dropWhile p = l := by
  cases l with
  | nil => rfl
  | cons c r =>
    exact List.dropWhile_cons_of_neg (by simp [h c (List.mem_cons_self c r)])

theorem dropTrailingWs_append_left (a b : Str)
    (ha : ∀ ch ∈ a, isJsWs ch = false) :
    dropTrailingWs (a ++ b) = a ++ dropTrailingWs b := by
  unfold dropTrailingWs
  rw [List.reverse_append, List.dropWhile_append]
  by_cases h : (b.reverse.dropWhile isJsWs).isEmpty
  · rw [if_pos h]
    rw [dropWhile_eq_self_of isJsWs a.reverse
      (fun c hc => ha c (by simpa using hc))]
    rw [List.reverse_reverse]
    have hb : (b.reverse.dropWhile isJsWs).reverse = [] := by
      rw [List.isEmpty_iff] at h
      simp [h]
    rw [hb, List.append_nil]
  · rw [if_neg h, List.reverse_append, List.reverse_reverse]

theorem sha1sumExtract_plain (hex name : Str) (hne : hex ≠ [])
    (hnw : ∀ ch ∈ hex, isJsWs ch = false) :
    sha1sumExtract (hex ++ ' ' :: name) = (hex.drop 1).take 10 := by
  obtain ⟨c, hs, rfl⟩ : ∃ c hs, hex = c :: hs := by
    cases hex with
    | nil => exact absurd rfl hne
    | cons c hs => exact ⟨c, hs, rfl⟩
  unfold sha1sumExtract jsTrim
  rw [List.cons_append, List.dropWhile_cons_of_neg
    (by simp [hnw c (List.mem_cons_self c hs)])]
  rw [← List.cons_append]
  rw [dropTrailingWs_append_left (c :: hs) (' ' :: name) hnw]
  rw [List.takeWhile_append_of_pos
    (fun x hx => by simp [hnw x hx])]
  have hq := dropTrailingWs_append_ws (' ' :: name)
  cases hqe : dropTrailingWs (' ' :: name) with
  | nil => simp
  | cons x q' =>
    rw [hqe] at hq
    have hx : x = ' ' := by
      have hhd := congrArg (fun l => l.headD 'z') hq
      simpa using hhd
    subst hx
    rw [List.takeWhile_cons_of_neg (by simp [isJsWs])]
    simp

/-- Counterexample to C4: a file whose full SHA-1 hex digest is the
40-character string below produces, through the sha1sum method
(`substring(1, 11)` of the first field of the sha1sum output line),
the digest characters at indices 1 through 10 — not the first 10. -/
theorem sha1sum_branch_skips_first_char :
    sha1sumExtract
        ("0123456789abcdef0123456789abcdef01234567  f.bin".toList) =
      "123456789a".toList ∧
    ("0123456789abcdef0123456789abcdef01234567".toList).take 10 =
      "0123456789".toList ∧
    "123456789a".toList ≠ "0123456789".toList := by
  refine ⟨by decide, by decide, by decide⟩

/-- Claim C4 (amended): for every file and well-formed 40-character
lowercase hex digest, the nodejs method returns exactly 10 lowercase
hexadecimal characters, namely the first 10 of the digest; the sha1sum
method also returns 10 lowercase hexadecimal characters, but they are
the digest characters at indices 1 through 10 (`substring(1, 11)`),
not the first 10. -/
theorem digest_truncation (sha1hex : List Nat → Str) (chunks : List (List Nat))
    (h40 : (sha1hex chunks.flatten).length = 40)
    (hhex : ∀ ch ∈ sha1hex chunks.flatten, isLowerHex ch = true) :
    (calculateSHA1stream sha1hex chunks = (sha1hex chunks.flatten).take 10 ∧
      (calculateSHA1stream sha1hex chunks).length = 10 ∧
      ∀ ch ∈ calculateSHA1stream sha1hex chunks, isLowerHex ch = true) ∧
    ∀ hex name : Str, hex.length = 40 → (∀ ch ∈ hex, isLowerHex ch = true) →
      sha1sumExtract (hex ++ ' ' :: ' ' :: name) = (hex.drop 1).take 10 ∧
      (sha1sumExtract (hex ++ ' ' :: ' ' :: name)).length = 10 ∧
      ∀ ch ∈ sha1sumExtract (hex ++ ' ' :: ' ' :: name), isLowerHex ch = true := by
  have hstream : calculateSHA1stream sha1hex chunks =
      (sha1hex chunks.flatten).take 10 := by
    unfold calculateSHA1stream
    rw [foldl_update_data]
    simp
  constructor
  · refine ⟨hstream, ?_, ?_⟩
    · rw [hstream, List.length_take, h40]
      decide
    · intro ch hch
      rw [hstream] at hch
      exact hhex ch (List.take_subset _ _ hch)
  · intro hex name hlen hall
    have hex_ne : hex ≠ [] := by
      intro hh
      rw [hh] at hlen
      simp at hlen
    have hext : sha1sumExtract (hex ++ ' ' :: ' ' :: name) =
        (hex.drop 1).take 10 :=
      sha1sumExtract_plain hex (' ' :: name) hex_ne
        (fun ch hch => isLowerHex_not_ws ch (hall ch hch))
    refine ⟨hext, ?_, ?_⟩
    · rw [hext, List.length_take, List.length_drop, hlen]
      decide
    · intro ch hch
      rw [hext] at hch
      exact hall ch (List.drop_subset _ _ (List.take_subset _ _ hch))

/-- Witness for C4 (amended) with a concrete digest function, chunking
and sha1sum output line. -/
theorem digest_truncation_witness :
    calculateSHA1stream
        (fun _ => "0123456789abcdef0123456789abcdef01234567".toList) [[7]] =
      ("0123456789abcdef0123456789abcdef01234567".toList).take 10 ∧
    sha1sumExtract
        ("89abcdef0123456789abcdef0123456789abcdef".toList ++
          ' ' :: ' ' :: "f.bin".toList) =
      (("89abcdef0123456789abcdef0123456789abcdef".toList).drop 1).take 10 := by
  have h := digest_truncation
    (fun _ => "0123456789abcdef0123456789abcdef01234567".toList) [[7]]
    (by decide) (by decide)
  exact ⟨h.1.1,
    (h.2 ("89abcdef0123456789abcdef0123456789abcdef".toList)
      ("f.bin".toList) (by decide) (by decide)).1⟩

/-! ### Facts about the report-file lifecycle -/

theorem removeF_of_lookup_none (fs : List (Str × Str)) (p : Str)
    (h : lookupF fs p = none) : removeF fs p = fs := by
  induction fs with
  | nil => rfl
  | cons kv r ih =>
    rw [lookupF] at h
    split at h
    · exact absurd h (by simp)
    · next hq =>
        rw [removeF, List.filter_cons_of_pos (by simpa using hq)]
        rw [removeF] at ih
        rw [ih h]

theorem splitLines_append_nl (x t : Str) (h : '\n' ∉ x) :
    splitLines (x ++ '\n' :: t) = x :: splitLines t := by
  induction x with
  | nil => simp [splitLines]
  | cons c r ih =>
    simp only [List.mem_cons, not_or] at h
    have hc : ¬ c = '\n' := fun hh => h.1 hh.symm
    rw [List.cons_append, splitLines, if_neg hc, ih h.2]

theorem splitLines_joinLines (items : List Str) (hne : items ≠ [])
    (hnl : ∀ i ∈ items, '\n' ∉ i) :
    splitLines (joinLines items) = items := by
  induction items with
  | nil => exact absurd rfl hne
  | cons x rest ih =>
    cases rest with
    | nil => exact splitLines_no_nl x (hnl x (List.mem_cons_self x []))
    | cons y r =>
      rw [joinLines, splitLines_append_nl x _ (hnl x (List.mem_cons_self x _))]
      rw [ih (by simp) (fun i hi => hnl i (List.mem_cons_of_mem x hi))]

/-- Claim C7: for one output category, a non-empty list overwrites the
sidecar with its entries joined one per line; an empty list deletes a
stale sidecar, where a missing sidecar (ENOENT) leaves the state
untouched without error and any other unlink failure is surfaced as an
error; joining entries by newlines puts exactly one entry per line. -/
theorem report_lifecycle (items : List Str) (p : Str) (fs : SideFS) :
    (handleCategory items p fs =
      if items = [] then
        (if fs.failing.contains p then Except.error p
          else Except.ok ⟨removeF fs.files p, fs.failing⟩)
      else Except.ok (writeF fs p (joinLines items))) ∧
    (lookupF fs.files p = none → fs.failing.contains p = false →
      handleCategory [] p fs = Except.ok fs) ∧
    (items ≠ [] → (∀ i ∈ items, '\n' ∉ i) →
      splitLines (joinLines items) = items) := by
  refine ⟨?_, ?_, fun hne hnl => splitLines_joinLines items hne hnl⟩
  · cases items with
    | nil =>
      rw [handleCategory, if_neg (by simp)]
      rw [if_pos rfl]
      unfold deleteFileIfExists unlinkF
      by_cases hf : fs.failing.contains p
      · rw [if_pos hf, if_pos hf]
      · rw [if_neg hf, if_neg hf]
        cases hl : lookupF fs.files p with
        | none => simp [removeF_of_lookup_none fs.files p hl]
        | some c => rfl
    | cons x xs =>
      rw [handleCategory, if_pos (by simp), if_neg (by simp)]
  · intro h1 h2
    rw [handleCategory, if_neg (by simp)]
    unfold deleteFileIfExists unlinkF
    rw [if_neg (by simpa using h2), h1]

/-- Witness for C7: an empty category with no stale sidecar succeeds
without touching the state, and a one-entry report round-trips through
join and split. -/
theorem report_lifecycle_witness :
    handleCategory [] ("m.txt".toList) ⟨[], []⟩ =
      Except.ok (⟨[], []⟩ : SideFS) ∧
    splitLines (joinLines ["a".toList]) = ["a".toList] :=
  ⟨(report_lifecycle [] ("m.txt".toList) ⟨[], []⟩).2.1 rfl rfl,
   (report_lifecycle ["a".toList] ("m.txt".toList) ⟨[], []⟩).2.2
      (by simp) (by decide)⟩

/-! ### Facts about the checksum verification loop -/

theorem checkOne_snd (pr : Probe) (e : ManifestEntry) :
    (checkOne pr e).2 = if pr = Probe.enoent then [e.filePath] else [] := by
  cases pr with
  | enoent => rfl
  | errOther m => rfl
  | nullHash => rfl
  | hashed h =>
    rw [checkOne]
    split <;> simp

theorem runVerify_missing (env : Str → Probe) (dir : Str) :
    ∀ es : List ManifestEntry, (runVerify env dir es).2 =
      ((es.filter fun x => env (joinP dir x.filePath) = Probe.enoent).map
        fun x => x.filePath) := by
  intro es
  induction es with
  | nil => rfl
  | cons e rest ih =>
    rw [runVerify]
    simp only [checkOne_snd, List.filter_cons]
    by_cases hp : env (joinP dir e.filePath) = Probe.enoent
    · simp [hp, ih]
    · simp [hp, ih]

/-- Claim C8: per-entry classification of the checksum loop — the loop
is a total fold that appends each entry classification and always
continues with the remaining entries; ENOENT at the probed path
classifies the entry as missing (and those are exactly the missing
entries, in manifest order), a computed digest is compared after
lower-casing both sides and a mismatch is recorded on inequality only,
and a hash failure (null result or any other thrown error) folds into
the mismatch report instead of aborting. -/
theorem checksum_loop_classification (env : Str → Probe) (dir : Str)
    (e : ManifestEntry) (rest : List ManifestEntry) :
    (runVerify env dir (e :: rest) =
      ((checkOne (env (joinP dir e.filePath)) e).1 ++ (runVerify env dir rest).1,
        (checkOne (env (joinP dir e.filePath)) e).2 ++ (runVerify env dir rest).2)) ∧
    checkOne .enoent e = ([], [e.filePath]) ∧
    (∀ m, checkOne (.errOther m) e =
      ([e.filePath ++ (" (error: ".toList ++ m ++ ")".toList)], [])) ∧
    checkOne .nullHash e =
      ([e.filePath ++ " (hash calculation failed)".toList], []) ∧
    (∀ hsh, checkOne (.hashed hsh) e =
      if lowerStr hsh ≠ lowerStr e.expectedHash then
        ([e.filePath ++ (" (expected ".toList ++ lowerStr e.expectedHash ++
          ", got ".toList ++ lowerStr hsh ++ ")".toList)], [])
      else ([], [])) ∧
    ((runVerify env dir (e :: rest)).2 =
      (((e :: rest).filter fun x =>
          env (joinP dir x.filePath) = Probe.enoent).map fun x => x.filePath)) :=
  ⟨rfl, rfl, fun _ => rfl, rfl, fun _ => rfl,
    runVerify_missing env dir (e :: rest)⟩

end VerifyFiles
